import Mathlib

/-!
Verification of the `chain` daily task tracker (Task Listing Engine).

Shallow embedding of the Rust sources:
  * `src/structs/task.rs`        — `Remark`, `Completion`, `TaskDetails`, `Task`, `TaskError`
  * `src/structs/taskoperation.rs` — `TaskOperation`
  * `src/structs/tasklisting.rs` — `TaskListing`, `handle_operation`, `move_task`,
                                   `history_for_range`
  * `src/tui.rs`                 — interactive `UiMode::Listing` state machine

Modelling conventions:
  * UTC instants (`chrono::DateTime<Utc>`) are abstract `Nat` values.
  * The viewer's time zone is a function `localDay : Nat → Int` mapping an instant to
    its local calendar day; `Date<Local>` values are `Int` day numbers, `succ` is `+1`
    and the `Ord` on dates is the order on `Int`.
  * `Utc::now()` / `Local::today()` are supplied through an explicit `Clock`.
  * Rust `&mut self` methods returning `Result<(), TaskError>` become functions
    returning `Except TaskError Unit × State`: the second component is the state after
    the call (unchanged on every early-return path, exactly as in the source).
-/

namespace Chain

/-- Embeds `Remark` (src/structs/task.rs): a timestamp plus the remark text. -/
structure Remark where
  datetime : Nat
  remark : String
deriving DecidableEq

/-- Embeds `Completion` (src/structs/task.rs): the completion instant plus an
optional remark made when completing. -/
structure Completion where
  datetime : Nat
  remark : Option Remark
deriving DecidableEq

/-- Embeds `TaskDetails` (src/structs/task.rs): one description revision. -/
structure TaskDetails where
  revised : Nat
  revision_id : Nat
  description : String
  sync_time : Option Nat
deriving DecidableEq

/-- Embeds `TaskError` (src/structs/task.rs).  The enum in task.rs declares
`AlreadyCompleted`, `NotFound`, `RedundantMove` and `StoreFailed`;
`tasklisting.rs` additionally constructs `TaskError::MissingDescription` for an
`Add` with an empty description, so that variant is part of the error type the
operation handler actually uses. -/
inductive TaskError where
  | AlreadyCompleted
  | NotFound
  | RedundantMove
  | StoreFailed
  | MissingDescription
deriving DecidableEq

/-- Embeds `Task` (src/structs/task.rs): revision history (newest first),
completions (insertion order) and standalone remarks. -/
structure Task where
  detail_history : List TaskDetails
  completions : List Completion
  remarks : List Remark
deriving DecidableEq

/-- Embeds `TaskOperation` (src/structs/taskoperation.rs). -/
inductive TaskOperation where
  | Add (description : String)
  | MarkComplete (task_index : Nat) (remark : Option String)
  | AddRemark (task_index : Nat) (remark : String)
  | Reorder (from_ : Nat) (to_ : Nat)
deriving DecidableEq

/-- The ambient wall clock: the current UTC instant and the fixed local time zone,
as a map from UTC instants to local calendar days. -/
structure Clock where
  now : Nat
  localDay : Nat → Int

/-- Embeds `Local::today()`: the local calendar day of the current instant. -/
def Clock.today (clk : Clock) : Int := clk.localDay clk.now

/-- Embeds `TaskDetails::new` (src/structs/task.rs): `revised` defaults to the
current instant when no time is supplied. -/
def TaskDetails.new (clk : Clock) (time : Option Nat) (revision_id : Nat)
    (description : String) : TaskDetails :=
  { revised := time.getD clk.now
    revision_id := revision_id
    description := description
    sync_time := none }

/-- Embeds `Task::new` (src/structs/task.rs): one revision-0 `TaskDetails`, empty
completions and remarks. -/
def Task.new (clk : Clock) (description : String) : Task :=
  { detail_history := [TaskDetails.new clk none 0 description]
    completions := []
    remarks := [] }

/-- Embeds `Task::details` (src/structs/task.rs): the first (most recent) revision. -/
def Task.details (t : Task) : Option TaskDetails :=
  t.detail_history.head?

/-- Embeds `Task::completed_on` (src/structs/task.rs): some completion's instant
falls on the given local date. -/
def Task.completed_on (t : Task) (clk : Clock) (date : Int) : Bool :=
  t.completions.any (fun cp => clk.localDay cp.datetime == date)

/-- Embeds `Task::completed_today` (src/structs/task.rs): the instant of the first
completion falling on today's local date, if any. -/
def Task.completed_today (t : Task) (clk : Clock) : Option Nat :=
  (t.completions.find? (fun cp => clk.localDay cp.datetime == clk.today)).map
    (fun cp => cp.datetime)

/-- The optional completion remark, stamped with the completion instant — the
`remark` rebinding inside `Task::mark_complete`. -/
def mkRemark (now : Nat) (remark : Option String) : Option Remark :=
  match remark with
  | some r => some { datetime := now, remark := r }
  | none => none

/-- Embeds `Task::mark_complete` (src/structs/task.rs): already completed today
fails with `AlreadyCompleted` and leaves the task untouched; otherwise a
`Completion` stamped with the current instant (and the optional remark, stamped
with the same instant) is pushed. -/
def Task.mark_complete (t : Task) (clk : Clock) (remark : Option String) :
    Except TaskError Unit × Task :=
  if (t.completed_today clk).isSome then
    (Except.error TaskError.AlreadyCompleted, t)
  else
    let now := clk.now
    (Except.ok (),
      { t with completions := t.completions ++ [{ datetime := now, remark := mkRemark now remark }] })

/-- Embeds `Task::add_remark` (src/structs/task.rs): unconditionally pushes a
remark stamped with the current instant. -/
def Task.add_remark (t : Task) (clk : Clock) (remark : String) :
    Except TaskError Unit × Task :=
  (Except.ok (), { t with remarks := t.remarks ++ [{ datetime := clk.now, remark := remark }] })

/-- Embeds `TaskListing` (src/structs/tasklisting.rs): the priority-ordered tasks. -/
structure TaskListing where
  all_tasks : List Task
deriving DecidableEq

/-- Embeds `TaskListing::new`. -/
def TaskListing.new : TaskListing := { all_tasks := [] }

/-- Embeds `TaskListing::total_tasks` (`task_iter().count()`). -/
def TaskListing.total_tasks (l : TaskListing) : Nat := l.all_tasks.length

/-- Embeds `TaskListing::move_task` (src/structs/tasklisting.rs): bounds check
(`NotFound`), identity check (`RedundantMove`), then `remove(from)` followed by
`insert(to, _)`. -/
def TaskListing.move_task (l : TaskListing) (from_ to_ : Nat) :
    Except TaskError Unit × TaskListing :=
  if h : l.total_tasks ≤ from_ ∨ l.total_tasks ≤ to_ then
    (Except.error TaskError.NotFound, l)
  else
    if from_ = to_ then
      (Except.error TaskError.RedundantMove, l)
    else
      let element_moving := l.all_tasks.get
        ⟨from_, by simp only [TaskListing.total_tasks] at h; omega⟩
      (Except.ok (), { all_tasks := (l.all_tasks.eraseIdx from_).insertIdx to_ element_moving })

/-- Embeds `TaskListing::handle_operation` (src/structs/tasklisting.rs).  Each
match arm performs the source's checks in source order; the second component is
the listing after the call (identical to the input on every error path, since
every early return precedes every mutation). -/
def TaskListing.handle_operation (l : TaskListing) (clk : Clock) (op : TaskOperation) :
    Except TaskError Unit × TaskListing :=
  match op with
  | TaskOperation.Add description =>
    if description.length = 0 then
      (Except.error TaskError.MissingDescription, l)
    else
      (Except.ok (), { all_tasks := l.all_tasks ++ [Task.new clk description] })
  | TaskOperation.MarkComplete task_index remark =>
    if h : l.all_tasks.length ≤ task_index then
      (Except.error TaskError.NotFound, l)
    else
      let matching_task := l.all_tasks.get ⟨task_index, by omega⟩
      let r := matching_task.mark_complete clk remark
      (r.1, { all_tasks := l.all_tasks.set task_index r.2 })
  | TaskOperation.Reorder from_ to_ => l.move_task from_ to_
  | TaskOperation.AddRemark task_index remark =>
    if h : l.all_tasks.length ≤ task_index then
      (Except.error TaskError.NotFound, l)
    else
      let matching_task := l.all_tasks.get ⟨task_index, by omega⟩
      let r := matching_task.add_remark clk remark
      (r.1, { all_tasks := l.all_tasks.set task_index r.2 })

/-- Runs a sequence of operations from a starting listing; each step carries its
own current instant but the time zone is fixed.  Models the successive
`handle_operation` calls a process performs. -/
def runOps (ld : Nat → Int) (l : TaskListing) (ops : List (Nat × TaskOperation)) :
    TaskListing :=
  ops.foldl (fun acc p => (acc.handle_operation { now := p.1, localDay := ld } p.2).2) l

/-- Writing back the element just read leaves a list unchanged. -/
theorem list_set_getElem_self {α : Type} :
    ∀ (l : List α) (i : Nat) (h : i < l.length), l.set i (l[i]) = l
  | _ :: _, 0, _ => rfl
  | a :: l, i + 1, h =>
    congrArg (List.cons a) (list_set_getElem_self l i (Nat.lt_of_succ_lt_succ h))

instance {ε α : Type} [DecidableEq ε] [DecidableEq α] : DecidableEq (Except ε α) :=
  fun x y =>
    match x, y with
    | Except.ok a, Except.ok b =>
      if h : a = b then isTrue (by rw [h]) else isFalse (by simp [h])
    | Except.error a, Except.error b =>
      if h : a = b then isTrue (by rw [h]) else isFalse (by simp [h])
    | Except.ok _, Except.error _ => isFalse (by simp)
    | Except.error _, Except.ok _ => isFalse (by simp)

/-- A fixed sample clock for concrete instantiations. -/
def clk0 : Clock := { now := 0, localDay := fun _ => 0 }

/-- C2: whenever `handle_operation` reports an error, the listing it leaves behind
is exactly the listing it was given — no task added, no completion or remark
appended, no task moved, on any failure path of `Add`, `MarkComplete`,
`AddRemark` or `Reorder`. -/
theorem handle_operation_error_no_mutation (clk : Clock) (l : TaskListing)
    (op : TaskOperation) (e : TaskError)
    (h : (l.handle_operation clk op).1 = Except.error e) :
    (l.handle_operation clk op).2 = l := by
  cases op with
  | Add description =>
    by_cases h0 : description.length = 0
    · simp [TaskListing.handle_operation, h0]
    · simp [TaskListing.handle_operation, h0] at h
  | MarkComplete task_index remark =>
    by_cases hb : l.all_tasks.length ≤ task_index
    · simp [TaskListing.handle_operation, hb]
    · have hlt : task_index < l.all_tasks.length := by omega
      simp only [TaskListing.handle_operation] at h ⊢
      rw [dif_neg hb] at h ⊢
      simp only [Task.mark_complete, List.get_eq_getElem] at h ⊢
      by_cases hc : ((l.all_tasks[task_index]).completed_today clk).isSome
      · rw [if_pos hc]
        exact congrArg TaskListing.mk (list_set_getElem_self _ _ hlt)
      · rw [if_neg hc] at h
        simp at h
  | AddRemark task_index remark =>
    by_cases hb : l.all_tasks.length ≤ task_index
    · simp [TaskListing.handle_operation, hb]
    · simp only [TaskListing.handle_operation] at h
      rw [dif_neg hb] at h
      simp [Task.add_remark] at h
  | Reorder from_ to_ =>
    simp only [TaskListing.handle_operation, TaskListing.move_task] at h ⊢
    by_cases h1 : l.total_tasks ≤ from_ ∨ l.total_tasks ≤ to_
    · rw [dif_pos h1]
    · rw [dif_neg h1] at h ⊢
      by_cases h2 : from_ = to_
      · simp [h2]
      · simp [h2] at h

/-- C2 witness: a `MarkComplete` on the empty listing fails with `NotFound` and the
theorem yields that the listing is unchanged. -/
theorem handle_operation_error_no_mutation_witness :
    ((TaskListing.new.handle_operation clk0 (TaskOperation.MarkComplete 0 none)).1
      = Except.error TaskError.NotFound) ∧
    (TaskListing.new.handle_operation clk0 (TaskOperation.MarkComplete 0 none)).2
      = TaskListing.new :=
  ⟨by decide,
   handle_operation_error_no_mutation clk0 TaskListing.new
     (TaskOperation.MarkComplete 0 none) TaskError.NotFound (by decide)⟩

/-- C7: `Add` with a zero-character description fails with `MissingDescription`
leaving the listing unchanged; with a description of at least one character it
succeeds, the length grows by exactly one, and the appended task at index
`old_length` carries a single revision-0 `TaskDetails` and empty completion and
remark sequences. -/
theorem add_semantics (clk : Clock) (l : TaskListing) (description : String) :
    (description.length = 0 →
      l.handle_operation clk (TaskOperation.Add description)
        = (Except.error TaskError.MissingDescription, l)) ∧
    (0 < description.length →
      (l.handle_operation clk (TaskOperation.Add description)).1 = Except.ok () ∧
      (l.handle_operation clk (TaskOperation.Add description)).2.total_tasks
        = l.total_tasks + 1 ∧
      (l.handle_operation clk (TaskOperation.Add description)).2.all_tasks[l.total_tasks]?
        = some { detail_history :=
                   [{ revised := clk.now, revision_id := 0
                      description := description, sync_time := none }]
                 completions := []
                 remarks := [] }) := by
  constructor
  · intro h0
    simp [TaskListing.handle_operation, h0]
  · intro h1
    have h0 : ¬ description.length = 0 := by omega
    refine ⟨?_, ?_, ?_⟩
    · simp [TaskListing.handle_operation, h0]
    · simp [TaskListing.handle_operation, h0, TaskListing.total_tasks]
    · simp [TaskListing.handle_operation, h0, TaskListing.total_tasks,
        Task.new, TaskDetails.new, List.getElem?_concat_length]

/-- C7 witness: instantiation at the empty listing with the empty description and
with a one-character description. -/
theorem add_semantics_witness :
    (TaskListing.new.handle_operation clk0 (TaskOperation.Add (""))
      = (Except.error TaskError.MissingDescription, TaskListing.new)) ∧
    ((TaskListing.new.handle_operation clk0 (TaskOperation.Add ("a"))).1
        = Except.ok () ∧
      (TaskListing.new.handle_operation clk0 (TaskOperation.Add ("a"))).2.total_tasks
        = TaskListing.new.total_tasks + 1) :=
  ⟨(add_semantics clk0 TaskListing.new ("")).1 (by decide),
   ⟨((add_semantics clk0 TaskListing.new ("a")).2 (by decide)).1,
    ((add_semantics clk0 TaskListing.new ("a")).2 (by decide)).2.1⟩⟩

/-- C8: `MarkComplete` and `AddRemark` with `task_index ≥ length` — in particular
`task_index = length`, one past the end — fail with `NotFound` on a listing of
any size, leaving it unchanged. -/
theorem oob_index_not_found (clk : Clock) (l : TaskListing) (task_index : Nat)
    (h : l.total_tasks ≤ task_index) (rem : Option String) (remark : String) :
    l.handle_operation clk (TaskOperation.MarkComplete task_index rem)
      = (Except.error TaskError.NotFound, l) ∧
    l.handle_operation clk (TaskOperation.AddRemark task_index remark)
      = (Except.error TaskError.NotFound, l) := by
  have h' : l.all_tasks.length ≤ task_index := h
  constructor <;> simp [TaskListing.handle_operation, h']

/-- C8 witness: `task_index = length` on the empty listing (index 0) fails
`NotFound` for both operations. -/
theorem oob_index_not_found_witness :
    TaskListing.new.handle_operation clk0 (TaskOperation.MarkComplete 0 none)
      = (Except.error TaskError.NotFound, TaskListing.new) ∧
    TaskListing.new.handle_operation clk0 (TaskOperation.AddRemark 0 (""))
      = (Except.error TaskError.NotFound, TaskListing.new) :=
  oob_index_not_found clk0 TaskListing.new 0 (by decide) none ("")

/-- Index-wise description of `List.insertIdx` when the insertion position is
within the list. -/
theorem list_getElem?_insertIdx {α : Type} :
    ∀ (n : Nat) (x : α) (l : List α), n ≤ l.length → ∀ i : Nat,
      (l.insertIdx n x)[i]? =
        if i < n then l[i]? else if i = n then some x else l[i - 1]?
  | 0, x, l, _, i => by
    cases i with
    | zero => simp
    | succ i => simp
  | n + 1, x, [], h, i => by simp at h
  | n + 1, x, a :: l, h, i => by
    cases i with
    | zero => simp
    | succ i =>
      have ih := list_getElem?_insertIdx n x l (Nat.le_of_succ_le_succ h) i
      simp only [List.insertIdx_succ_cons, List.getElem?_cons_succ, ih]
      by_cases h1 : i < n
      · rw [if_pos h1, if_pos (by omega)]
      · rw [if_neg h1, if_neg (by omega : ¬ i + 1 < n + 1)]
        by_cases h2 : i = n
        · rw [if_pos h2, if_pos (by omega)]
        · rw [if_neg h2, if_neg (by omega : ¬ i + 1 = n + 1)]
          have hi : 1 ≤ i := by omega
          rw [show i + 1 - 1 = (i - 1) + 1 by omega]
          simp

/-- Reinserting the element just removed at the same index restores the list. -/
theorem list_insertIdx_getElem_eraseIdx {α : Type} :
    ∀ (l : List α) (i : Nat) (h : i < l.length),
      (l.eraseIdx i).insertIdx i (l[i]) = l
  | _ :: _, 0, _ => rfl
  | a :: l, i + 1, h =>
    congrArg (List.cons a)
      (list_insertIdx_getElem_eraseIdx l i (Nat.lt_of_succ_lt_succ h))

/-- C6: `Reorder` fails `NotFound` whenever either index is out of bounds (so on an
empty listing `from = to` also yields `NotFound`), fails `RedundantMove` when both
indices are in bounds and equal, and otherwise performs a list splice: the moved
task lands at `to`, every task strictly between shifts by one slot, and every
other task keeps its index — so `[A,B,C,D]` with `0 → 2` becomes `[B,C,A,D]`. -/
theorem reorder_semantics (l : TaskListing) (from_ to_ : Nat) :
    ((l.total_tasks ≤ from_ ∨ l.total_tasks ≤ to_) →
       l.move_task from_ to_ = (Except.error TaskError.NotFound, l)) ∧
    (from_ < l.total_tasks → from_ = to_ →
       l.move_task from_ to_ = (Except.error TaskError.RedundantMove, l)) ∧
    (from_ < l.total_tasks → to_ < l.total_tasks → from_ ≠ to_ →
       (l.move_task from_ to_).1 = Except.ok () ∧
       (l.move_task from_ to_).2.total_tasks = l.total_tasks ∧
       ∀ i : Nat,
         (l.move_task from_ to_).2.all_tasks[i]? =
           if i = to_ then l.all_tasks[from_]?
           else if from_ ≤ i ∧ i < to_ then l.all_tasks[i + 1]?
           else if to_ < i ∧ i ≤ from_ then l.all_tasks[i - 1]?
           else l.all_tasks[i]?) ∧
    (∀ a b c d : Task,
       (TaskListing.mk [a, b, c, d]).move_task 0 2
         = (Except.ok (), TaskListing.mk [b, c, a, d])) := by
  refine ⟨?_, ?_, ?_, ?_⟩
  · intro h1
    simp only [TaskListing.move_task]
    rw [dif_pos h1]
  · intro h1 h2
    simp only [TaskListing.move_task]
    rw [dif_neg (by omega), if_pos h2]
  · intro hf ht hne
    have hfl : from_ < l.all_tasks.length := hf
    have htl : to_ < l.all_tasks.length := ht
    have hE : (l.all_tasks.eraseIdx from_).length = l.all_tasks.length - 1 :=
      List.length_eraseIdx_of_lt hfl
    simp only [TaskListing.move_task]
    rw [dif_neg (by omega), if_neg hne]
    refine ⟨rfl, ?_, ?_⟩
    · show ((l.all_tasks.eraseIdx from_).insertIdx to_ _).length = _
      rw [List.length_insertIdx _ _ (by omega), hE]
      simp only [TaskListing.total_tasks]
      omega
    · intro i
      show ((l.all_tasks.eraseIdx from_).insertIdx to_ _)[i]? = _
      rw [list_getElem?_insertIdx _ _ _ (by omega) i]
      by_cases h1 : i < to_
      · rw [if_pos h1, if_neg (by omega : ¬ i = to_),
          if_neg (by omega : ¬ (to_ < i ∧ i ≤ from_))]
        by_cases h2 : i < from_
        · rw [List.getElem?_eraseIdx_of_lt _ _ _ h2,
            if_neg (by omega : ¬ (from_ ≤ i ∧ i < to_))]
        · rw [List.getElem?_eraseIdx_of_ge _ _ _ (by omega),
            if_pos (by omega : from_ ≤ i ∧ i < to_)]
      · by_cases h2 : i = to_
        · rw [if_neg (by omega : ¬ i < to_), if_pos h2, if_pos h2,
            List.getElem?_eq_getElem hfl]
          simp
        · rw [if_neg h1, if_neg h2, if_neg h2,
            if_neg (by omega : ¬ (from_ ≤ i ∧ i < to_))]
          by_cases h3 : i - 1 < from_
          · rw [List.getElem?_eraseIdx_of_lt _ _ _ h3,
              if_pos (by omega : to_ < i ∧ i ≤ from_)]
          · rw [List.getElem?_eraseIdx_of_ge _ _ _ (by omega),
              if_neg (by omega : ¬ (to_ < i ∧ i ≤ from_)),
              show i - 1 + 1 = i from by omega]
  · intro a b c d
    simp only [TaskListing.move_task]
    rw [dif_neg (by simp [TaskListing.total_tasks]),
      if_neg (by omega : (0 : Nat) ≠ 2)]
    rfl

/-- C6 witness: instantiation on a concrete four-task listing covering the
out-of-bounds, redundant, and splice cases. -/
theorem reorder_semantics_witness :
    ((TaskListing.mk [Task.new clk0 ("A")]).move_task 0 1
      = (Except.error TaskError.NotFound, TaskListing.mk [Task.new clk0 ("A")])) ∧
    ((TaskListing.mk [Task.new clk0 ("A")]).move_task 0 0
      = (Except.error TaskError.RedundantMove, TaskListing.mk [Task.new clk0 ("A")])) ∧
    ((TaskListing.mk [Task.new clk0 ("A"), Task.new clk0 ("B"), Task.new clk0 ("C"),
        Task.new clk0 ("D")]).move_task 0 2).2.total_tasks
      = (TaskListing.mk [Task.new clk0 ("A"), Task.new clk0 ("B"), Task.new clk0 ("C"),
          Task.new clk0 ("D")]).total_tasks ∧
    (TaskListing.mk [Task.new clk0 ("A"), Task.new clk0 ("B"), Task.new clk0 ("C"),
        Task.new clk0 ("D")]).move_task 0 2
      = (Except.ok (), TaskListing.mk [Task.new clk0 ("B"), Task.new clk0 ("C"),
          Task.new clk0 ("A"), Task.new clk0 ("D")]) :=
  ⟨(reorder_semantics (TaskListing.mk [Task.new clk0 ("A")]) 0 1).1 (by right; decide),
   ((reorder_semantics (TaskListing.mk [Task.new clk0 ("A")]) 0 0).2.1 (by decide) rfl),
   ((reorder_semantics (TaskListing.mk [Task.new clk0 ("A"), Task.new clk0 ("B"),
       Task.new clk0 ("C"), Task.new clk0 ("D")]) 0 2).2.2.1 (by decide) (by decide)
       (by decide)).2.1,
   (reorder_semantics (TaskListing.mk []) 0 2).2.2.2 (Task.new clk0 ("A"))
     (Task.new clk0 ("B")) (Task.new clk0 ("C")) (Task.new clk0 ("D"))⟩

/-- C9: on two distinct in-bounds indices, `Reorder(a,b)` followed by
`Reorder(b,a)` succeeds and restores the original task order exactly. -/
theorem reorder_roundtrip (l : TaskListing) (a b : Nat)
    (ha : a < l.total_tasks) (hb : b < l.total_tasks) (hne : a ≠ b) :
    (l.move_task a b).1 = Except.ok () ∧
    ((l.move_task a b).2.move_task b a).1 = Except.ok () ∧
    ((l.move_task a b).2.move_task b a).2 = l := by
  have hal : a < l.all_tasks.length := ha
  have hbl : b < l.all_tasks.length := hb
  have hE : (l.all_tasks.eraseIdx a).length = l.all_tasks.length - 1 :=
    List.length_eraseIdx_of_lt hal
  have hlen1 :
      ((l.all_tasks.eraseIdx a).insertIdx b (l.all_tasks[a])).length
        = l.all_tasks.length := by
    rw [List.length_insertIdx _ _ (by omega), hE]; omega
  have step1 : l.move_task a b
      = (Except.ok (), TaskListing.mk
          ((l.all_tasks.eraseIdx a).insertIdx b (l.all_tasks[a]))) := by
    simp only [TaskListing.move_task]
    rw [dif_neg (by omega), if_neg hne]
    simp only [List.get_eq_getElem]
  rw [step1]
  have hb2 : b < ((l.all_tasks.eraseIdx a).insertIdx b (l.all_tasks[a])).length := by
    omega
  have step2 : (TaskListing.mk
        ((l.all_tasks.eraseIdx a).insertIdx b (l.all_tasks[a]))).move_task b a
      = (Except.ok (), TaskListing.mk
          ((((l.all_tasks.eraseIdx a).insertIdx b (l.all_tasks[a])).eraseIdx b).insertIdx a
            ((((l.all_tasks.eraseIdx a).insertIdx b (l.all_tasks[a])))[b]))) := by
    simp only [TaskListing.move_task]
    rw [dif_neg (by simp only [TaskListing.total_tasks, hlen1]; omega),
      if_neg (Ne.symm hne)]
    simp only [List.get_eq_getElem]
  rw [step2]
  refine ⟨rfl, rfl, ?_⟩
  have hget : (((l.all_tasks.eraseIdx a).insertIdx b (l.all_tasks[a]))[b])
      = l.all_tasks[a] :=
    List.getElem_insertIdx_self (l.all_tasks.eraseIdx a) (l.all_tasks[a]) b (by omega)
  rw [hget, List.eraseIdx_insertIdx, list_insertIdx_getElem_eraseIdx l.all_tasks a hal]

/-- C9 witness: a two-element listing moved `0 → 1` then `1 → 0` returns to its
original order. -/
theorem reorder_roundtrip_witness :
    let l2 := TaskListing.mk [Task.new clk0 ("A"), Task.new clk0 ("B")]
    ((l2.move_task 0 1).2.move_task 1 0).2 = l2 :=
  (reorder_roundtrip (TaskListing.mk [Task.new clk0 ("A"), Task.new clk0 ("B")])
    0 1 (by decide) (by decide) (by decide)).2.2

/-- The revision history is untouched by `mark_complete` on either branch. -/
theorem mark_complete_detail_history (t : Task) (clk : Clock) (rem : Option String) :
    (t.mark_complete clk rem).2.detail_history = t.detail_history := by
  unfold Task.mark_complete
  split <;> rfl

/-- The completion list is untouched by `add_remark`. -/
theorem add_remark_completions (t : Task) (clk : Clock) (rem : String) :
    (t.add_remark clk rem).2.completions = t.completions := rfl

/-- The revision history is untouched by `add_remark`. -/
theorem add_remark_detail_history (t : Task) (clk : Clock) (rem : String) :
    (t.add_remark clk rem).2.detail_history = t.detail_history := rfl

/-- Provenance of tasks in a post-`handle_operation` listing: each is an original
task, a freshly created task, or the image of an original task under
`mark_complete` or `add_remark`. -/
theorem mem_handle_operation (clk : Clock) (l : TaskListing) (op : TaskOperation)
    (t : Task) (ht : t ∈ (l.handle_operation clk op).2.all_tasks) :
    t ∈ l.all_tasks ∨
    (∃ d, t = Task.new clk d) ∨
    (∃ t₀ ∈ l.all_tasks, ∃ rem, t = (t₀.mark_complete clk rem).2) ∨
    (∃ t₀ ∈ l.all_tasks, ∃ rem, t = (t₀.add_remark clk rem).2) := by
  cases op with
  | Add description =>
    by_cases h0 : description.length = 0
    · simp only [TaskListing.handle_operation, if_pos h0] at ht
      exact Or.inl ht
    · simp only [TaskListing.handle_operation, if_neg h0] at ht
      rcases List.mem_append.mp ht with h1 | h1
      · exact Or.inl h1
      · exact Or.inr (Or.inl ⟨description, List.mem_singleton.mp h1⟩)
  | MarkComplete task_index remark =>
    by_cases hb : l.all_tasks.length ≤ task_index
    · simp only [TaskListing.handle_operation, dif_pos hb] at ht
      exact Or.inl ht
    · simp only [TaskListing.handle_operation, dif_neg hb] at ht
      rcases List.mem_or_eq_of_mem_set ht with h1 | h1
      · exact Or.inl h1
      · exact Or.inr (Or.inr (Or.inl
          ⟨_, List.get_mem l.all_tasks task_index (by omega), remark, h1⟩))
  | Reorder from_ to_ =>
    simp only [TaskListing.handle_operation, TaskListing.move_task] at ht
    by_cases h1 : l.total_tasks ≤ from_ ∨ l.total_tasks ≤ to_
    · rw [dif_pos h1] at ht
      exact Or.inl ht
    · rw [dif_neg h1] at ht
      by_cases h2 : from_ = to_
      · rw [if_pos h2] at ht
        exact Or.inl ht
      · rw [if_neg h2] at ht
        have hfl : from_ < l.all_tasks.length := by
          simp only [TaskListing.total_tasks] at h1; omega
        have htl : to_ < l.all_tasks.length := by
          simp only [TaskListing.total_tasks] at h1; omega
        have hE : (l.all_tasks.eraseIdx from_).length = l.all_tasks.length - 1 :=
          List.length_eraseIdx_of_lt hfl
        rcases (List.mem_insertIdx (by omega)).mp ht with h3 | h3
        · exact Or.inl (h3 ▸ List.get_mem l.all_tasks from_ _)
        · exact Or.inl (List.mem_of_mem_eraseIdx h3)
  | AddRemark task_index remark =>
    by_cases hb : l.all_tasks.length ≤ task_index
    · simp only [TaskListing.handle_operation, dif_pos hb] at ht
      exact Or.inl ht
    · simp only [TaskListing.handle_operation, dif_neg hb] at ht
      rcases List.mem_or_eq_of_mem_set ht with h1 | h1
      · exact Or.inl h1
      · exact Or.inr (Or.inr (Or.inr
          ⟨_, List.get_mem l.all_tasks task_index (by omega), remark, h1⟩))

/-- A membership-wise task property preserved by every `handle_operation` step is
preserved by any run of operations. -/
theorem runOps_preserves_mem (ld : Nat → Int) (P : Task → Prop)
    (hstep : ∀ (now : Nat) (l : TaskListing) (op : TaskOperation),
      (∀ t ∈ l.all_tasks, P t) →
      ∀ t ∈ (l.handle_operation { now := now, localDay := ld } op).2.all_tasks, P t) :
    ∀ (ops : List (Nat × TaskOperation)) (l : TaskListing),
      (∀ t ∈ l.all_tasks, P t) → ∀ t ∈ (runOps ld l ops).all_tasks, P t
  | [], _, h => h
  | p :: ops, l, h =>
    runOps_preserves_mem ld P hstep ops _ (hstep p.1 l p.2 h)

/-- All completions of a task fall on pairwise distinct local days. -/
def Task.distinctCompletionDays (ld : Nat → Int) (t : Task) : Prop :=
  t.completions.Pairwise (fun c₁ c₂ => ld c₁.datetime ≠ ld c₂.datetime)

/-- The `completed_today` guard inside `mark_complete` keeps completion days
pairwise distinct. -/
theorem mark_complete_preserves_distinctDays (ld : Nat → Int) (now : Nat)
    (rem : Option String) (t : Task) (h : t.distinctCompletionDays ld) :
    ((t.mark_complete { now := now, localDay := ld } rem).2).distinctCompletionDays ld := by
  unfold Task.mark_complete
  by_cases hc : (t.completed_today { now := now, localDay := ld }).isSome
  · rw [if_pos hc]
    exact h
  · rw [if_neg hc]
    have hfind : t.completions.find?
        (fun cp => ld cp.datetime == Clock.today { now := now, localDay := ld }) = none := by
      cases hf : t.completions.find?
          (fun cp => ld cp.datetime == Clock.today { now := now, localDay := ld }) with
      | none => rfl
      | some c => rw [Task.completed_today, hf] at hc; simp at hc
    simp only [Task.distinctCompletionDays, List.pairwise_append]
    refine ⟨h, List.pairwise_singleton _ _, ?_⟩
    intro c₁ hc₁ c₂ hc₂
    rcases List.mem_singleton.mp hc₂ with rfl
    have := List.find?_eq_none.mp hfind c₁ hc₁
    simpa [Clock.today] using this

/-- Pairwise-distinct completion days bound the per-day completion count by one. -/
theorem count_le_one_of_pairwise_ne (ld : Nat → Int) :
    ∀ (cs : List Completion),
      cs.Pairwise (fun c₁ c₂ => ld c₁.datetime ≠ ld c₂.datetime) →
      ∀ d : Int, (cs.filter (fun cp => ld cp.datetime == d)).length ≤ 1
  | [], _, d => by simp
  | c :: cs, h, d => by
    rcases List.pairwise_cons.mp h with ⟨hc, hcs⟩
    by_cases hd : ld c.datetime = d
    · have hnil : cs.filter (fun cp => ld cp.datetime == d) = [] := by
        rw [List.filter_eq_nil_iff]
        intro cp hcp
        simp only [beq_iff_eq, ← hd]
        exact fun hh => hc cp hcp hh.symm
      simp [List.filter_cons, hd, hnil]
    · rw [List.filter_cons_of_neg (by simpa using hd)]
      exact count_le_one_of_pairwise_ne ld cs hcs d

/-- C3: on any listing reachable from the empty listing, each task has at most one
completion on any given local calendar day; and marking the same in-bounds task
complete twice within one local day succeeds the first time, fails the second time
with `AlreadyCompleted` leaving the listing unchanged, and leaves exactly one
completion on that day for that task. -/
theorem at_most_one_completion_per_day (ld : Nat → Int) :
    (∀ (ops : List (Nat × TaskOperation)) (t : Task),
      t ∈ (runOps ld TaskListing.new ops).all_tasks → ∀ d : Int,
      (t.completions.filter (fun cp => ld cp.datetime == d)).length ≤ 1) ∧
    (∀ (now₁ now₂ : Nat) (l : TaskListing) (idx : Nat) (r₁ r₂ : Option String),
      (l.handle_operation { now := now₁, localDay := ld }
          (TaskOperation.MarkComplete idx r₁)).1 = Except.ok () →
      ld now₂ = ld now₁ →
      ((l.handle_operation { now := now₁, localDay := ld }
          (TaskOperation.MarkComplete idx r₁)).2.handle_operation
          { now := now₂, localDay := ld } (TaskOperation.MarkComplete idx r₂)).1
        = Except.error TaskError.AlreadyCompleted ∧
      ((l.handle_operation { now := now₁, localDay := ld }
          (TaskOperation.MarkComplete idx r₁)).2.handle_operation
          { now := now₂, localDay := ld } (TaskOperation.MarkComplete idx r₂)).2
        = (l.handle_operation { now := now₁, localDay := ld }
            (TaskOperation.MarkComplete idx r₁)).2 ∧
      ∀ t₁, (l.handle_operation { now := now₁, localDay := ld }
          (TaskOperation.MarkComplete idx r₁)).2.all_tasks[idx]? = some t₁ →
        (t₁.completions.filter (fun cp => ld cp.datetime == ld now₁)).length = 1) := by
  constructor
  · intro ops t ht d
    have hinv : t.distinctCompletionDays ld := by
      refine runOps_preserves_mem ld (fun u => u.distinctCompletionDays ld) ?_ ops
        TaskListing.new (by intro u hu; simp [TaskListing.new] at hu) t ht
      intro now l op hP u hu
      rcases mem_handle_operation _ l op u hu with
        h1 | ⟨dsc, rfl⟩ | ⟨t₀, ht₀, rem, rfl⟩ | ⟨t₀, ht₀, rem, rfl⟩
      · exact hP u h1
      · simp [Task.new, Task.distinctCompletionDays]
      · exact mark_complete_preserves_distinctDays ld now rem t₀ (hP t₀ ht₀)
      · simpa only [Task.distinctCompletionDays, add_remark_completions] using hP t₀ ht₀
    exact count_le_one_of_pairwise_ne ld t.completions hinv d
  · intro now₁ now₂ l idx r₁ r₂ h1 h2
    by_cases hb : l.all_tasks.length ≤ idx
    · exfalso
      simp [TaskListing.handle_operation, hb] at h1
    · have hlt : idx < l.all_tasks.length := by omega
      have hc : ((l.all_tasks[idx]).completed_today
          { now := now₁, localDay := ld }).isSome = false := by
        cases hcx : ((l.all_tasks[idx]).completed_today
            { now := now₁, localDay := ld }).isSome with
        | false => rfl
        | true =>
          exfalso
          simp only [TaskListing.handle_operation] at h1
          rw [dif_neg hb] at h1
          simp [Task.mark_complete, List.get_eq_getElem, hcx] at h1
      have hfind : (l.all_tasks[idx]).completions.find?
          (fun cp => ld cp.datetime == Clock.today { now := now₁, localDay := ld }) = none := by
        cases hf : (l.all_tasks[idx]).completions.find?
            (fun cp => ld cp.datetime == Clock.today { now := now₁, localDay := ld }) with
        | none => rfl
        | some c => rw [Task.completed_today, hf] at hc; simp at hc
      have step1 : l.handle_operation { now := now₁, localDay := ld }
          (TaskOperation.MarkComplete idx r₁)
          = (Except.ok (), TaskListing.mk (l.all_tasks.set idx
              { l.all_tasks[idx] with
                  completions := (l.all_tasks[idx]).completions ++
                    [{ datetime := now₁, remark := mkRemark now₁ r₁ }] })) := by
        simp only [TaskListing.handle_operation]
        rw [dif_neg hb]
        simp only [Task.mark_complete, List.get_eq_getElem]
        rw [if_neg (by simp [hc])]
      rw [step1]
      have hb2 : ¬ (l.all_tasks.set idx
          { l.all_tasks[idx] with
              completions := (l.all_tasks[idx]).completions ++
                [{ datetime := now₁, remark := mkRemark now₁ r₁ }] }).length ≤ idx := by
        rw [List.length_set]; omega
      have hget : ∀ hh : idx < (l.all_tasks.set idx
          { l.all_tasks[idx] with
              completions := (l.all_tasks[idx]).completions ++
                [{ datetime := now₁, remark := mkRemark now₁ r₁ }] }).length,
          ((l.all_tasks.set idx
          { l.all_tasks[idx] with
              completions := (l.all_tasks[idx]).completions ++
                [{ datetime := now₁, remark := mkRemark now₁ r₁ }] })[idx])
          = { l.all_tasks[idx] with
              completions := (l.all_tasks[idx]).completions ++
                [{ datetime := now₁, remark := mkRemark now₁ r₁ }] } :=
        fun hh => List.getElem_set_self hh
      have hcomp2 : (({ l.all_tasks[idx] with
          completions := (l.all_tasks[idx]).completions ++
            [{ datetime := now₁, remark := mkRemark now₁ r₁ }] } : Task).completed_today
          { now := now₂, localDay := ld }).isSome = true := by
        simp only [Task.completed_today, Option.isSome_map']
        rw [List.find?_isSome]
        refine ⟨{ datetime := now₁, remark := mkRemark now₁ r₁ }, ?_, ?_⟩
        · exact List.mem_append_right _ (List.mem_singleton.mpr rfl)
        · simp [Clock.today, h2]
      refine ⟨?_, ?_, ?_⟩
      · simp only [TaskListing.handle_operation]
        rw [dif_neg hb2]
        simp only [Task.mark_complete, List.get_eq_getElem, hget]
        rw [if_pos hcomp2]
      · simp only [TaskListing.handle_operation]
        rw [dif_neg hb2]
        simp only [Task.mark_complete, List.get_eq_getElem, hget]
        rw [if_pos hcomp2]
        simp [List.set_set]
      · intro t₁ ht₁
        rw [show (TaskListing.mk (l.all_tasks.set idx
            { l.all_tasks[idx] with
                completions := (l.all_tasks[idx]).completions ++
                  [{ datetime := now₁, remark := mkRemark now₁ r₁ }] })).all_tasks
            = l.all_tasks.set idx
              { l.all_tasks[idx] with
                  completions := (l.all_tasks[idx]).completions ++
                    [{ datetime := now₁, remark := mkRemark now₁ r₁ }] } from rfl,
          List.getElem?_set_self hlt] at ht₁
        have ht₁' : t₁ = { l.all_tasks[idx] with
            completions := (l.all_tasks[idx]).completions ++
              [{ datetime := now₁, remark := mkRemark now₁ r₁ }] } := by
          cases ht₁
          rfl
        subst ht₁'
        have hnil : (l.all_tasks[idx]).completions.filter
            (fun cp => ld cp.datetime == ld now₁) = [] := by
          rw [List.filter_eq_nil_iff]
          intro cp hcp
          have := List.find?_eq_none.mp hfind cp hcp
          simpa [Clock.today] using this
        simp [List.filter_append, hnil]

/-- C3 witness: a fresh one-task listing, completed twice at the same local day,
exhibits first-success, second-`AlreadyCompleted`, and a final count of one. -/
theorem at_most_one_completion_per_day_witness :
    ((Task.new clk0 ("a")).completions.filter
        (fun cp => ((fun _ => (0 : Int)) cp.datetime) == (0 : Int))).length ≤ 1 ∧
    ((TaskListing.mk [Task.new clk0 ("a")]).handle_operation
        { now := 0, localDay := fun _ => 0 } (TaskOperation.MarkComplete 0 none)).1
      = Except.ok () ∧
    (((TaskListing.mk [Task.new clk0 ("a")]).handle_operation
        { now := 0, localDay := fun _ => 0 }
        (TaskOperation.MarkComplete 0 none)).2.handle_operation
        { now := 1, localDay := fun _ => 0 } (TaskOperation.MarkComplete 0 none)).1
      = Except.error TaskError.AlreadyCompleted := by
  refine ⟨?_, by decide, ?_⟩
  · exact (at_most_one_completion_per_day (fun _ => 0)).1
      [(0, TaskOperation.Add ("a"))] (Task.new clk0 ("a"))
      (List.mem_singleton.mpr rfl) 0
  · exact ((at_most_one_completion_per_day (fun _ => 0)).2 0 1
      (TaskListing.mk [Task.new clk0 ("a")]) 0 none none (by decide) rfl).1

/-- C10: every task of a listing reachable from the empty listing by
`handle_operation` calls has a non-empty revision history, so `Task::details`
returns `Some` for it (and the renderers' `details().unwrap()` cannot see `None`). -/
theorem reachable_details_isSome (ld : Nat → Int) (ops : List (Nat × TaskOperation))
    (t : Task) (ht : t ∈ (runOps ld TaskListing.new ops).all_tasks) :
    (t.details).isSome = true := by
  have hne : t.detail_history ≠ [] := by
    refine runOps_preserves_mem ld (fun u => u.detail_history ≠ []) ?_ ops
      TaskListing.new (by intro u hu; simp [TaskListing.new] at hu) t ht
    intro now l op hP u hu
    rcases mem_handle_operation _ l op u hu with
      h1 | ⟨d, rfl⟩ | ⟨t₀, ht₀, rem, rfl⟩ | ⟨t₀, ht₀, rem, rfl⟩
    · exact hP u h1
    · simp [Task.new]
    · rw [mark_complete_detail_history]
      exact hP t₀ ht₀
    · rw [add_remark_detail_history]
      exact hP t₀ ht₀
  unfold Task.details
  cases hd : t.detail_history with
  | nil => exact absurd hd hne
  | cons a as => rfl

/-- C10 witness: the task created by a single `Add` has `Some` details. -/
theorem reachable_details_isSome_witness :
    ((Task.new clk0 ("a")).details).isSome = true :=
  reachable_details_isSome (fun _ => 0) [(0, TaskOperation.Add ("a"))]
    (Task.new clk0 ("a")) (List.mem_singleton.mpr rfl)

/-- Embeds the `pancurses::Input` values distinguished by `input_and_render`
(src/tui.rs): arrow keys, a typed character, or anything else. -/
inductive UiInput where
  | keyUp
  | keyDown
  | character (c : Char)
  | otherInput
deriving DecidableEq

/-- Embeds the `UiMode::Listing` payload (src/tui.rs). -/
structure UiListing where
  task_index : Option Nat
  prev_index : Option Nat
  scroll_pos : Nat
deriving DecidableEq

/-- Outcome of one `input_and_render` pass: a normal return of the updated mode
state and an optionally queued operation, or a Rust panic raised by
`Option::unwrap` on a `None` value. -/
inductive UiStep where
  | next (st : UiListing) (op : Option TaskOperation)
  | unwrapPanic
deriving DecidableEq

/-- Embeds the decision logic of `input_and_render` (src/tui.rs): arrow-key
selection updates, the space-bar completion operation, and the scroll
adjustment.  Drawing calls are omitted; `task_count` is
`tasks.task_iter().count()` and `max_entries_visible` is the window-derived
value.  Both `task_index.unwrap()` call sites of the source — the space-bar
handler and the unconditional scroll adjustment — surface as
`UiStep.unwrapPanic`. -/
def input_and_render (task_count max_entries_visible : Nat) (ui : UiListing)
    (input : Option UiInput) : UiStep :=
  let max_task_index : Nat := if task_count > 0 then task_count - 1 else 0
  let st1 : UiListing :=
    match input with
    | some UiInput.keyUp =>
      match ui.task_index with
      | some index =>
        if index > 0 then
          { ui with prev_index := some index, task_index := some (index - 1) }
        else ui
      | none => ui
    | some UiInput.keyDown =>
      match ui.task_index with
      | some index =>
        if index < max_task_index then
          { ui with prev_index := some index, task_index := some (index + 1) }
        else ui
      | none => ui
    | _ => ui
  let opStep : Except Unit (Option TaskOperation) :=
    match input with
    | some (UiInput.character c) =>
      if c = ' ' then
        match ui.task_index with
        | some index => Except.ok (some (TaskOperation.MarkComplete index none))
        | none => Except.error ()
      else Except.ok none
    | _ => Except.ok none
  match opStep with
  | Except.error _ => UiStep.unwrapPanic
  | Except.ok task_operation =>
    match st1.task_index with
    | none => UiStep.unwrapPanic
    | some task_index =>
      let st2 : UiListing :=
        if task_index < st1.scroll_pos then
          { st1 with scroll_pos := task_index }
        else if st1.scroll_pos + max_entries_visible ≤ task_index then
          { st1 with scroll_pos := task_index - max_entries_visible + 1 }
        else st1
      UiStep.next st2 task_operation

/-- Embeds the initial mode chosen by `run` (src/tui.rs): index 0 selected when
tasks exist, no selection otherwise. -/
def initialMode (tasks : TaskListing) : UiListing :=
  if tasks.all_tasks.length > 0 then
    { task_index := some 0, prev_index := none, scroll_pos := 0 }
  else
    { task_index := none, prev_index := none, scroll_pos := 0 }

/-- C4 (code versus claim): on an empty listing `run` indeed selects no task
(`task_index = none`) — but a space ("complete") input in that state reaches
`task_index.unwrap()` on `None` and panics instead of being a no-op, and even an
input-free pass panics in the unconditional scroll adjustment. -/
theorem empty_listing_complete_input_panics :
    (initialMode TaskListing.new).task_index = none ∧
    input_and_render 0 20 (initialMode TaskListing.new)
        (some (UiInput.character (' '))) = UiStep.unwrapPanic ∧
    input_and_render 0 20 (initialMode TaskListing.new) none = UiStep.unwrapPanic :=
  ⟨rfl, rfl, rfl⟩

/-- Carried per-row renderer state: `any_done` and `last_complete` in
`history_for_range` (src/structs/tasklisting.rs lines 300-301). -/
structure RenderSt where
  any_done : Bool
  last_complete : Bool
deriving DecidableEq

/-- One rendered history cell: the status symbol printed inside the day's column
(after the leading `|`) and the connector printed between it and the next
column. -/
structure Chunk where
  sym : String
  conn : String
deriving DecidableEq

/-- Embeds the symbol if-chain of `history_for_range` for a day with
`date ≤ today` (src/structs/tasklisting.rs lines 306-317), in source order:
completed; past-and-never-any-done; today; streak-break; otherwise nothing
printed. -/
def daySym (c : Int → Bool) (today : Int) (st : RenderSt) (date : Int) :
    String × RenderSt :=
  if c date then ("o", { any_done := true, last_complete := true })
  else if date ≠ today ∧ ¬ st.any_done then (" ", st)
  else if date = today then ("?", st)
  else if st.any_done ∧ st.last_complete then ("x", { st with last_complete := false })
  else ("", st)

/-- Embeds one iteration of the day loop of `history_for_range` (lines 302-329):
the symbol chain and then, when the day is not the last column, the connector
(`"-o-"` when `last_complete` holds after the symbol update and the day is not
today, three blanks otherwise); a future day prints four blanks and skips the
connector logic entirely. -/
def dayRender (c : Int → Bool) (today lastDate : Int) (st : RenderSt) (date : Int) :
    Chunk × RenderSt :=
  if date ≤ today then
    let s := daySym c today st date
    let conn :=
      if date ≠ lastDate then
        (if s.2.last_complete ∧ date ≠ today then "-o-" else "   ")
      else ""
    ({ sym := s.1, conn := conn }, s.2)
  else
    ({ sym := "    ", conn := "" }, st)

/-- The full day loop of one task row, threading the carried state. -/
def renderRowGo (c : Int → Bool) (today lastDate : Int) :
    List Int → RenderSt → List Chunk
  | [], _ => []
  | date :: dates, st =>
    let r := dayRender c today lastDate st date
    r.1 :: renderRowGo c today lastDate dates r.2

/-- The renderer state after processing a list of days. -/
def processState (c : Int → Bool) (today lastDate : Int) (dates : List Int)
    (st : RenderSt) : RenderSt :=
  dates.foldl (fun s d => (dayRender c today lastDate s d).2) st

/-- The inclusive day range `[start, end]` built by `history_for_range`: the
source pushes `date_at` and advances with `succ()` until it equals `end.succ()`;
for `start ≤ end` this is the arithmetic range (for `start > end + 1` the Rust
loop would never terminate). -/
def datesRange (start endd : Int) : List Int :=
  (List.range (endd + 1 - start).toNat).map (fun i => start + (i : Int))

/-- The day cells of one task row of `history_for_range`: initial state
`(false, false)`, last column compared against `dates.last()`. -/
def historyRowChunks (c : Int → Bool) (today start endd : Int) : List Chunk :=
  renderRowGo c today ((datesRange start endd).getLastD 0) (datesRange start endd)
    { any_done := false, last_complete := false }

/-- One task's day-cell row in `history_for_range`: the completion predicate is
`Task::completed_on` and "today" is the clock's local day. -/
def history_for_range_row (clk : Clock) (t : Task) (start endd : Int) : List Chunk :=
  historyRowChunks (fun d => t.completed_on clk d) clk.today start endd

/-- The printed text of one task row's cells: `|`, symbol, connector per column. -/
def historyRowText (clk : Clock) (t : Task) (start endd : Int) : String :=
  String.join ((history_for_range_row clk t start endd).map
    (fun ch => "|" ++ ch.sym ++ ch.conn))

/-- Whether the last day of a window is completed (the value `last_complete`
carries out of a run of strictly-past days). -/
def lastDone (c : Int → Bool) : List Int → Bool
  | [] => false
  | [d] => c d
  | _ :: d' :: ds => lastDone c (d' :: ds)

/-- The row has one cell per day. -/
theorem renderRowGo_length (c : Int → Bool) (today lastDate : Int) :
    ∀ (dates : List Int) (st : RenderSt),
      (renderRowGo c today lastDate dates st).length = dates.length
  | [], _ => rfl
  | _ :: dates, _st => congrArg Nat.succ (renderRowGo_length c today lastDate dates _)

/-- Splitting the day loop at an append boundary. -/
theorem renderRowGo_append (c : Int → Bool) (today lastDate : Int) :
    ∀ (L₁ L₂ : List Int) (st : RenderSt),
      renderRowGo c today lastDate (L₁ ++ L₂) st
        = renderRowGo c today lastDate L₁ st
          ++ renderRowGo c today lastDate L₂ (processState c today lastDate L₁ st)
  | [], L₂, st => rfl
  | d :: ds, L₂, st => by
    simp only [List.cons_append, renderRowGo, processState, List.foldl_cons]
    exact congrArg _ (renderRowGo_append c today lastDate ds L₂ _)

/-- The cell rendered for the day just after a processed prefix. -/
theorem renderRowGo_getElem_middle (c : Int → Bool) (today lastDate : Int)
    (L₁ : List Int) (d : Int) (L₂ : List Int) (st : RenderSt) :
    (renderRowGo c today lastDate (L₁ ++ d :: L₂) st)[L₁.length]?
      = some (dayRender c today lastDate (processState c today lastDate L₁ st) d).1 := by
  rw [renderRowGo_append,
    List.getElem?_append_right (by rw [renderRowGo_length]),
    renderRowGo_length, Nat.sub_self]
  simp [renderRowGo]

/-- `last_complete` can only be set while `any_done` is set. -/
def stInv (st : RenderSt) : Prop :=
  st.any_done = false → st.last_complete = false

/-- The state invariant survives one rendered day. -/
theorem dayRender_stInv (c : Int → Bool) (today lastDate : Int) (st : RenderSt)
    (date : Int) (h : stInv st) :
    stInv ((dayRender c today lastDate st date).2) := by
  obtain ⟨ad, lc⟩ := st
  unfold dayRender daySym
  by_cases h1 : date ≤ today
  · rw [if_pos h1]
    by_cases h2 : c date
    · rw [if_pos h2]
      intro hh
      simp at hh
    · rw [if_neg h2]
      by_cases h3 : date ≠ today ∧ ¬ (ad = true)
      · rw [if_pos h3]; exact h
      · rw [if_neg h3]
        by_cases h4 : date = today
        · rw [if_pos h4]; exact h
        · rw [if_neg h4]
          by_cases h5 : ad = true ∧ lc = true
          · rw [if_pos h5]
            intro hh
            rfl
          · rw [if_neg h5]; exact h
  · rw [if_neg h1]; exact h

/-- The state invariant survives any processed day list. -/
theorem processState_stInv (c : Int → Bool) (today lastDate : Int) :
    ∀ (dates : List Int) (st : RenderSt), stInv st →
      stInv (processState c today lastDate dates st)
  | [], _, h => h
  | d :: ds, st, h =>
    processState_stInv c today lastDate ds _ (dayRender_stInv c today lastDate st d h)

/-- One strictly-past day updates the state to
`(any_done ∨ completed, completed)`. -/
theorem dayRender_snd_past (c : Int → Bool) (today lastDate : Int) (st : RenderSt)
    (date : Int) (hd : date < today) (hinv : stInv st) :
    (dayRender c today lastDate st date).2
      = { any_done := st.any_done || c date, last_complete := c date } := by
  obtain ⟨ad, lc⟩ := st
  unfold dayRender daySym
  rw [if_pos (le_of_lt hd)]
  by_cases h2 : c date
  · rw [if_pos h2]
    simp [h2]
  · rw [if_neg h2]
    simp only [Bool.not_eq_true] at h2
    by_cases h3 : date ≠ today ∧ ¬ (ad = true)
    · rw [if_pos h3]
      have had : ad = false := by
        rcases h3 with ⟨-, h3⟩
        simpa using h3
      have hlc : lc = false := hinv had
      simp [had, hlc, h2]
    · rw [if_neg h3]
      rw [if_neg (by omega : ¬ date = today)]
      have had : ad = true := by
        rcases not_and_or.mp h3 with h | h
        · exact absurd (by omega : date ≠ today) h
        · simpa using h
      by_cases h5 : ad = true ∧ lc = true
      · rw [if_pos h5]
        simp [had, h2]
      · rw [if_neg h5]
        have hlc : lc = false := by
          rcases not_and_or.mp h5 with h | h
          · exact absurd had h
          · simpa using h
        simp [had, hlc, h2]

/-- Closed form of the carried state over a run of strictly-past days. -/
theorem processState_past (c : Int → Bool) (today lastDate : Int) :
    ∀ (L : List Int), (∀ e ∈ L, e < today) → ∀ st : RenderSt, stInv st →
      processState c today lastDate L st
        = { any_done := st.any_done || L.any c
            last_complete := match L with
              | [] => st.last_complete
              | _ :: _ => lastDone c L }
  | [], _, st, _ => by simp [processState]
  | d :: ds, hL, st, hinv => by
    have hd : d < today := hL d (List.mem_cons_self d ds)
    have hstep : processState c today lastDate (d :: ds) st
        = processState c today lastDate ds
            { any_done := st.any_done || c d, last_complete := c d } := by
      simp only [processState, List.foldl_cons]
      rw [dayRender_snd_past c today lastDate st d hd hinv]
    rw [hstep,
      processState_past c today lastDate ds
        (fun e he => hL e (List.mem_cons_of_mem d he))
        { any_done := st.any_done || c d, last_complete := c d }
        (by intro hh; simp at hh ⊢; exact hh.2)]
    cases ds with
    | nil => simp [lastDone]
    | cons d' ds' =>
      simp only [List.any_cons, Bool.or_assoc]
      rfl

/-- A window whose last day is completed has a completed day. -/
theorem any_of_lastDone (c : Int → Bool) :
    ∀ L : List Int, lastDone c L = true → L.any c = true
  | [d], h => by simpa [lastDone] using h
  | d :: d' :: ds, h => by
    have := any_of_lastDone c (d' :: ds) (by simpa [lastDone] using h)
    simp only [List.any_cons] at this ⊢
    simp [this]

/-- Appending one day makes it the last. -/
theorem lastDone_append_single (c : Int → Bool) :
    ∀ (L : List Int) (d : Int), lastDone c (L ++ [d]) = c d
  | [], d => rfl
  | [e], d => rfl
  | e :: e' :: es, d => by
    show lastDone c ((e' :: es) ++ [d]) = c d
    exact lastDone_append_single c (e' :: es) d

/-- Initial-state closed form of the carried state over strictly-past days. -/
theorem processState_past_init (c : Int → Bool) (today lastDate : Int)
    (L : List Int) (hL : ∀ e ∈ L, e < today) :
    processState c today lastDate L { any_done := false, last_complete := false }
      = { any_done := L.any c, last_complete := lastDone c L } := by
  rw [processState_past c today lastDate L hL _ (fun _ => rfl)]
  cases L with
  | nil => simp [lastDone]
  | cons d ds => simp

/-- A window with no completed day has no completed last day. -/
theorem lastDone_eq_false_of_any (c : Int → Bool) (L : List Int)
    (hA : L.any c = false) : lastDone c L = false := by
  cases hl : lastDone c L with
  | false => rfl
  | true => exact absurd (any_of_lastDone c L hl) (by simp [hA])

/-- The symbol chain on a strictly-past uncompleted day, as a function of the
carried state. -/
theorem daySym_past_uncompleted (c : Int → Bool) (today : Int) (A L : Bool)
    (d : Int) (hd : d < today) (hnc : c d = false) (hinv : A = false → L = false) :
    daySym c today { any_done := A, last_complete := L } d
      = ((if L then "x" else if A then "" else " "),
         { any_done := A, last_complete := false }) := by
  unfold daySym
  rw [if_neg (by simp [hnc])]
  by_cases hL : L = true
  · have hA : A = true := by
      by_contra hA'
      have := hinv (by simpa using hA')
      simp [this] at hL
    rw [if_neg (by simp [hA]), if_neg (by omega : ¬ d = today),
      if_pos (by simp [hA, hL])]
    simp [hL, hA]
  · have hL' : L = false := by simpa using hL
    by_cases hA : A = true
    · rw [if_neg (by simp [hA]), if_neg (by omega : ¬ d = today),
        if_neg (by simp [hL'])]
      simp [hL', hA]
    · have hA' : A = false := by simpa using hA
      rw [if_pos ⟨by omega, by simp [hA']⟩]
      simp [hL', hA']

/-- A concrete clock whose local day of instant `n` is `n / 10`; its today is
day 10. -/
def clkC1 : Clock := { now := 100, localDay := fun n => (n : Int) / 10 }

/-- A concrete task completed only on local day 0 (instant 5). -/
def taskC1 : Task :=
  { detail_history := [{ revised := 0, revision_id := 0, description := "t", sync_time := none }]
    completions := [{ datetime := 5, remark := none }]
    remarks := [] }

/-- C1 counterexample: in the window `[0, 2]` with today = 10, `taskC1` is
completed on day 0 only; day 2 is strictly past, uncompleted, and preceded in the
window by a completed day, yet its rendered cell carries no `x` — its symbol text
is empty (the row reads `o`, `x`, then nothing). -/
theorem missed_marker_counterexample :
    (history_for_range_row clkC1 taskC1 0 2).map Chunk.sym = ["o", "x", ""] ∧
    taskC1.completed_on clkC1 0 = true ∧
    taskC1.completed_on clkC1 2 = false ∧
    (2 : Int) < clkC1.today ∧
    ((history_for_range_row clkC1 taskC1 0 2)[2]?).map Chunk.sym ≠ some ("x") := by
  decide

/-- C1 amended: for every strictly-past uncompleted day of the window, the
renderer emits `x` exactly when the immediately preceding day of the window was
completed; with only non-adjacent earlier completions it emits no symbol
character at all, and with no earlier completion a blank; in every case the
carried `last_complete` is false after that day. -/
theorem missed_marker_amended (c : Int → Bool) (today lastDate : Int)
    (L₁ : List Int) (d : Int) (L₂ : List Int)
    (hL₁ : ∀ e ∈ L₁, e < today) (hd : d < today) (hnc : c d = false) :
    ((renderRowGo c today lastDate (L₁ ++ d :: L₂)
        { any_done := false, last_complete := false })[L₁.length]?).map Chunk.sym
      = some (if lastDone c L₁ then "x" else if L₁.any c then "" else " ") ∧
    (processState c today lastDate (L₁ ++ [d])
        { any_done := false, last_complete := false }).last_complete = false := by
  constructor
  · rw [renderRowGo_getElem_middle, processState_past_init c today lastDate L₁ hL₁]
    have hday := daySym_past_uncompleted c today (L₁.any c) (lastDone c L₁) d hd hnc
      (lastDone_eq_false_of_any c L₁)
    unfold dayRender
    rw [if_pos (le_of_lt hd), hday]
    simp
  · rw [processState_past_init c today lastDate (L₁ ++ [d]) ?side]
    case side =>
      intro e he
      rcases List.mem_append.mp he with h | h
      · exact hL₁ e h
      · rw [List.mem_singleton.mp h]; exact hd
    simp [lastDone_append_single, hnc]

/-- C1 amended witness: window days `[0, 1]` before day 2, with only day 0
completed: the cell for day 2 is empty and the carried `last_complete` is false. -/
theorem missed_marker_amended_witness :
    ((renderRowGo (fun e => e == 0) 10 2 ([0, 1] ++ 2 :: [])
        { any_done := false, last_complete := false })[([0, 1] : List Int).length]?).map
        Chunk.sym
      = some (if lastDone (fun e => e == 0) [0, 1] then "x"
          else if ([0, 1] : List Int).any (fun e => e == 0) then "" else " ") ∧
    (processState (fun e => e == 0) 10 2 ([0, 1] ++ [2])
        { any_done := false, last_complete := false }).last_complete = false :=
  missed_marker_amended (fun e => e == 0) 10 2 [0, 1] 2 []
    (by decide) (by decide) (by decide)

/-- The `last_complete` carried out of the symbol chain of a strictly-past day is
exactly that day's completion status. -/
theorem daySym_snd_last (c : Int → Bool) (today : Int) (st : RenderSt) (d : Int)
    (hd : d < today) (hinv : stInv st) :
    ((daySym c today st d).2).last_complete = c d := by
  have h := dayRender_snd_past c today 0 st d hd hinv
  have h2 : (dayRender c today 0 st d).2 = (daySym c today st d).2 := by
    unfold dayRender
    rw [if_pos (le_of_lt hd)]
  rw [h2] at h
  rw [h]

/-- The connector printed after a non-future day's cell. -/
theorem dayRender_conn (c : Int → Bool) (today lastDate : Int) (st : RenderSt)
    (d : Int) (hd : d ≤ today) :
    ((dayRender c today lastDate st d).1).conn
      = if d ≠ lastDate then
          (if (daySym c today st d).2.last_complete ∧ d ≠ today then "-o-" else "   ")
        else "" := by
  unfold dayRender
  rw [if_pos hd]

/-- A concrete clock whose local day of instant `n` is `n / 10`; its today is
day 1. -/
def clkC5 : Clock := { now := 10, localDay := fun n => (n : Int) / 10 }

/-- A concrete task completed only on local day 0 (instant 5), viewed with
`clkC5` (today = day 1, so the completion is yesterday). -/
def taskC5 : Task :=
  { detail_history := [{ revised := 0, revision_id := 0, description := "t", sync_time := none }]
    completions := [{ datetime := 5, remark := none }]
    remarks := [] }

/-- C5 counterexample: range `[yesterday, today]` with the task completed
yesterday.  The connector between the two columns is rendered (`-o-`) even though
the current (second) day of the pair is today, contradicting the claimed
"prior day completed and current day not today" characterisation. -/
theorem connector_counterexample :
    (history_for_range_row clkC5 taskC5 0 1).map Chunk.conn = ["-o-", ""] ∧
    taskC5.completed_on clkC5 0 = true ∧
    clkC5.today = 1 ∧
    ((history_for_range_row clkC5 taskC5 0 1)[0]?).map Chunk.conn ≠ some ("   ") := by
  decide

/-- C5 amended: the connector after a day's cell (for a day that is not the last
column) is the streak line `-o-` iff that prior day is not after today, is
completed, and is not itself today; and a single-day range `[today, today]` for a
task completed today renders the done symbol with an empty connector. -/
theorem connector_amended :
    (∀ (c : Int → Bool) (today lastDate : Int) (L₁ : List Int) (d : Int)
       (L₂ : List Int), d ≠ lastDate →
      ∃ ch, (renderRowGo c today lastDate (L₁ ++ d :: L₂)
          { any_done := false, last_complete := false })[L₁.length]? = some ch ∧
        (ch.conn = "-o-" ↔ (d ≤ today ∧ c d = true ∧ d ≠ today))) ∧
    (∀ (c : Int → Bool) (today : Int), c today = true →
      historyRowChunks c today today today = [{ sym := "o", conn := "" }]) := by
  constructor
  · intro c today lastDate L₁ d L₂ hne
    refine ⟨_, renderRowGo_getElem_middle c today lastDate L₁ d L₂ _, ?_⟩
    have hinv : stInv (processState c today lastDate L₁
        { any_done := false, last_complete := false }) :=
      processState_stInv c today lastDate L₁ _ (fun _ => rfl)
    by_cases hd : d ≤ today
    · rw [dayRender_conn c today lastDate _ d hd, if_pos hne]
      by_cases hdt : d = today
      · rw [if_neg (by simp [hdt])]
        exact ⟨fun h => absurd h (by decide), fun h => absurd hdt h.2.2⟩
      · have hdlt : d < today := by omega
        rw [daySym_snd_last c today _ d hdlt hinv]
        by_cases hc : c d = true
        · rw [if_pos ⟨by simp [hc], hdt⟩]
          exact ⟨fun _ => ⟨hd, hc, hdt⟩, fun _ => rfl⟩
        · rw [if_neg (by simp [hc])]
          exact ⟨fun h => absurd h (by decide), fun h => absurd h.2.1 hc⟩
    · have hfut : (dayRender c today lastDate (processState c today lastDate L₁
          { any_done := false, last_complete := false }) d).1
          = { sym := "    ", conn := "" } := by
        unfold dayRender
        rw [if_neg hd]
      rw [hfut]
      exact ⟨fun h => absurd h (by decide), fun h => absurd h.1 hd⟩
  · intro c today hc
    have h1 : (today + 1 - today).toNat = 1 := by omega
    have h2 : datesRange today today = [today] := by
      unfold datesRange
      rw [h1, show List.range 1 = [0] from by decide]
      simp
    unfold historyRowChunks
    rw [h2]
    show (dayRender c today _ _ today).1 :: _ = _
    unfold dayRender daySym
    rw [if_pos (le_refl today), if_pos hc]
    simp [List.getLastD, renderRowGo]

/-- C5 amended witness: instantiation of both conjuncts — a past completed day
followed by today gets the `-o-` connector, and the single-day completed-today
range renders `o` with no connector. -/
theorem connector_amended_witness :
    (∃ ch, (renderRowGo (fun e => e == 0) 1 1 ([] ++ 0 :: [1])
        { any_done := false, last_complete := false })[([] : List Int).length]?
        = some ch ∧
      (ch.conn = "-o-" ↔ ((0 : Int) ≤ 1 ∧ ((0 : Int) == 0) = true ∧ (0 : Int) ≠ 1))) ∧
    historyRowChunks (fun e => e == 1) 1 1 1 = [{ sym := "o", conn := "" }] :=
  ⟨connector_amended.1 (fun e => e == 0) 1 1 [] 0 [1] (by decide),
   connector_amended.2 (fun e => e == 1) 1 (by decide)⟩

end Chain
